import Mathlib

/-!
Verification of tap-escrow-manager against its specification.

The source is Rust. Machine integers are modelled as `Nat` with explicit
wrap (`% 2 ^ 128`) where the source can overflow; `f64` values are modelled
exactly: every floating-point value appearing in the program is a nonnegative
dyadic rational, represented as a pair `(m, e) : Nat × Int` denoting `m·2^e`.
Rounding to a 53-bit significand with round-half-to-even reproduces IEEE-754
binary64 semantics on the value ranges the program uses (no overflow to
infinity, no subnormals: all nonzero values lie far inside the finite range).
-/

set_option maxRecDepth 40000

/-! ## Exact model of the f64 arithmetic used by `next_balance` (src/main.rs) -/

/-- Round-half-to-even of the fraction `n / d` (for `d ≠ 0`). -/
def rhe (n d : Nat) : Nat :=
  let q := n / d
  let r := n % d
  if 2 * r < d then q else if d < 2 * r then q + 1 else if q % 2 = 0 then q else q + 1

/-- Fueled base-2 logarithm (`⌊log2 n⌋` for `1 ≤ n < 2^fuel`); structural so the
kernel can evaluate it. -/
def log2f : Nat → Nat → Nat
  | 0, _ => 0
  | f + 1, n => if n ≤ 1 then 0 else log2f f (n / 2) + 1

/-- `⌊log2 n⌋`, valid for `n < 2 ^ 512` (every number in this development). -/
def nlog2 (n : Nat) : Nat := log2f 512 n

/-- Whether `n / d ≥ 2 ^ t` (t may be negative). -/
def ratGePow2 (n d : Nat) (t : Int) : Bool :=
  decide (d * 2 ^ t.toNat ≤ n * 2 ^ (-t).toNat)

/-- `⌊log2 (n / d)⌋` for `1 ≤ n`, `1 ≤ d`. -/
def ratLog2 (n d : Nat) : Int :=
  let b : Int := (nlog2 n : Int) - (nlog2 d : Int)
  if ratGePow2 n d b then b else b - 1

/-- A (nonnegative) binary64 value, exactly: the pair `(m, e)` denotes `m·2^e`. -/
abbrev F64 := Nat × Int

/-- Round the positive fraction `n / d` to binary64: 53-bit significand,
round-half-to-even. -/
def roundPosPair (n d : Nat) : F64 :=
  let e := ratLog2 n d
  (rhe (n * 2 ^ (52 - e).toNat) (d * 2 ^ (e - 52).toNat), e - 52)

/-- Round the dyadic value `m·2^E` to binary64. -/
def roundDyad (m : Nat) (E : Int) : F64 :=
  if m = 0 then (0, 0) else roundPosPair (m * 2 ^ E.toNat) (2 ^ (-E).toNat)

/-- `u128 as f64` (round to nearest, ties to even). -/
def toF64 (n : Nat) : F64 := roundDyad n 0

/-- IEEE-754 binary64 multiplication of nonnegative values: round the exact
product. -/
def fmulF (p q : F64) : F64 := roundDyad (p.1 * q.1) (p.2 + q.2)

/-- Comparison `p ≤ q` of two f64 values (both nonnegative, both finite), by
cross-scaling to a common exponent. -/
def dyadLe (p q : F64) : Bool :=
  decide (p.1 * 2 ^ (p.2 - q.2).toNat ≤ q.1 * 2 ^ (q.2 - p.2).toNat)

/-- The f64 literal `0.6` from `next_balance`: `3/5` rounded to binary64. -/
def c06 : F64 := roundPosPair 3 5

/-- The exact rational value denoted by an f64 pair (proof-side semantics). -/
noncomputable def f64Val (p : F64) : ℚ := (p.1 : ℚ) * (2 : ℚ) ^ p.2

/-! ## `next_balance` (src/main.rs lines 253-259) -/

/-- `GRT = 1_000_000_000_000_000_000` (src/main.rs line 46). -/
def GRT : Nat := 1000000000000000000

/-- `MIN_DEPOSIT = 2 * GRT` (src/main.rs line 47). -/
def MIN_DEPOSIT : Nat := 2 * GRT

/-- `u32::MAX`, the saturation point of `next_round.saturating_mul(2)`. -/
def U32MAX : Nat := 2 ^ 32 - 1

/-- `next_round.saturating_mul(2)` on u32. -/
def satMul2 (r : Nat) : Nat := min (r * 2) U32MAX

/-- The loop guard `(debt as f64) >= ((next_round as u128 * GRT) as f64 * 0.6)`
of `next_balance`, in exact f64 semantics. -/
def guardF (debt r : Nat) : Bool := dyadLe (fmulF (toF64 (r * GRT)) c06) (toF64 debt)

/-- The `while` loop of `next_balance`, with fuel. When the guard holds at a
point where `saturating_mul` is stuck (`satMul2 r = r`) the Rust loop never
terminates; this is modelled as `none`. Fuel 33 is enough to reach a verdict
from the entry value 2, since `satMul2` strictly increases below `U32MAX`. -/
def loopFuel : Nat → Nat → Nat → Option Nat
  | 0, _, _ => none
  | f + 1, debt, r =>
    if guardF debt r then
      (if satMul2 r = r then none else loopFuel f debt (satMul2 r))
    else some (r * GRT)

/-- `next_balance` (src/main.rs lines 253-259); `none` models nontermination of
the source loop. -/
def next_balance (debt : Nat) : Option Nat := loopFuel 33 debt (MIN_DEPOSIT / GRT)

/-- The chain of values taken by `next_round`, starting from `r`, with fuel. -/
def chainList : Nat → Nat → List Nat
  | 0, _ => []
  | f + 1, r => if satMul2 r = r then [r] else r :: chainList f (satMul2 r)

/-- `MAX_BATCH = 10_000·GRT`. Modelled from the spec: this constant appears
only in the spec's batch-cap and tier-ladder text; the source under `src/`
defines no such constant. -/
def MAX_BATCH : Nat := 10000 * GRT

/-- Modelled from the spec: the tier-ladder recurrence as the spec words it,
`r = min(saturating(r·2), r + MAX_BATCH/GRT)` under the same f64 guard, for
comparison with the source's `next_balance`. -/
def specLoopFuel : Nat → Nat → Nat → Option Nat
  | 0, _, _ => none
  | f + 1, debt, r =>
    if guardF debt r then
      (if min (satMul2 r) (r + MAX_BATCH / GRT) = r then none
       else specLoopFuel f debt (min (satMul2 r) (r + MAX_BATCH / GRT)))
    else some (r * GRT)

/-- Modelled from the spec: the spec's claimed `next_balance` (doubling capped
by a linear extension of width `MAX_BATCH/GRT`). -/
def specTierLadder (debt : Nat) : Option Nat := specLoopFuel 33 debt (MIN_DEPOSIT / GRT)

/-- The natural number that `toF64` rounds `n` to (every u128 rounds to a
nonnegative integer under binary64). -/
def natRound (n : Nat) : Nat :=
  if n < 2 ^ 53 then n
  else rhe n (2 ^ (nlog2 n - 52)) * 2 ^ (nlog2 n - 52)

/-! ## Reconciliation loop: adjustments and deposit path (src/main.rs) -/

/-- Receiver addresses (20 bytes in the source), abstracted as naturals. -/
abbrev Addr := Nat

/-- An empty map lookup (used only to instantiate theorems at concrete
inputs). -/
def emptyLookup : Addr → Option Nat := fun _ => none

/-- `debt = max(debts.get(&receiver) or 0, config.debts.get(&receiver) or 0
times GRT)` (src/main.rs lines 194-197). -/
def debtOf (snap cfg : Addr → Option Nat) (r : Addr) : Nat :=
  max ((snap r).getD 0) (((cfg r).getD 0) * GRT)

/-- The `filter_map` computing the per-tick adjustments (src/main.rs lines
190-211): for each receiver, `balance = escrow_accounts.get or 0`,
`adjustment = next_balance(debt).saturating_sub(balance)`, emitted iff
nonzero. `none` models a tick on which the `next_balance` loop never
returns. -/
def adjustments (snap cfg esc : Addr → Option Nat) : List Addr → Option (List (Addr × Nat))
  | [] => some []
  | r :: rest =>
    match next_balance (debtOf snap cfg r) with
    | none => none
    | some nb =>
      match adjustments snap cfg esc rest with
      | none => none
      | some out =>
        some (if nb - (esc r).getD 0 = 0 then out else (r, nb - (esc r).getD 0) :: out)

/-- `total_adjustment`: the u128 sum of the adjustment amounts (src/main.rs
line 214); u128 addition wraps on overflow in release builds. -/
def totalAdjustment (adj : List (Addr × Nat)) : Nat :=
  adj.foldl (fun acc p => (acc + p.2) % 2 ^ 128) 0

/-- The deposit call of a tick (src/main.rs lines 216-219): when the total is
nonzero, the receiver and amount vectors passed to `depositMany` are read
directly from the adjustment list; no reduction of any kind is applied.
`none` models "no transaction sent this tick". -/
def depositCall (adj : List (Addr × Nat)) : Option (List Addr × List Nat) :=
  if 0 < totalAdjustment adj then some (adj.map Prod.fst, adj.map Prod.snd) else none

/-! ## Fee aggregator DB (src/receipts.rs lines 182-274)

Timestamps are modelled in whole seconds (the granularity at which the source
buckets; `DateTime` comparisons at sub-second precision do not affect the
properties stated here). -/

/-- `hourly_timestamp` (src/receipts.rs lines 271-274): `t - (t % 3600)` with
Rust's `%` on `i64`, which truncates toward zero (`Int.tmod`). -/
def rustHourly (t : Int) : Int := t - Int.tmod t 3600

/-- Modelled from the spec: `floor_to_hour`, flooring toward negative
infinity (the spec's reading of the bucket key). -/
def floorHour (t : Int) : Int := t - t % 3600

/-- A fee update (src/receipts.rs lines 182-186): timestamp (seconds),
receiver address, fee in wei. -/
structure FeeUpdate where
  timestamp : Int
  indexer : Addr
  fee : Nat

/-- The aggregator state: receiver → hour-bucket-start → cumulative fee.
`BTreeMap` is modelled as an association list with unique keys. -/
abbrev DBData := List (Addr × List (Int × Nat))

/-- `*entry += update.fee` into the hour bucket map, creating a zero entry
first when absent (`or_default`); u128 `+=` wraps on overflow in release
builds. -/
def bucketAdd (t : Int) (fee : Nat) : List (Int × Nat) → List (Int × Nat)
  | [] => [(t, (0 + fee) % 2 ^ 128)]
  | (t', v) :: rest =>
    if t' = t then (t', (v + fee) % 2 ^ 128) :: rest else (t', v) :: bucketAdd t fee rest

/-- Update the per-receiver entry (`or_default` on the outer map). -/
def dataAdd (a : Addr) (t : Int) (fee : Nat) : DBData → DBData
  | [] => [(a, bucketAdd t fee [])]
  | (a', es) :: rest =>
    if a' = a then (a', bucketAdd t fee es) :: rest else (a', es) :: dataAdd a t fee rest

/-- `DB::update` (src/receipts.rs lines 242-253): an update older than
`now - window` is discarded; otherwise its fee is added to the bucket at
`hourly_timestamp(update.timestamp)`. -/
def dbUpdate (window : Int) (data : DBData) (u : FeeUpdate) (now : Int) : DBData :=
  if u.timestamp < now - window then data
  else dataAdd u.indexer (rustHourly u.timestamp) u.fee data

/-- `DB::prune` (src/receipts.rs lines 255-261): drop buckets with key at most
`hourly_timestamp(now - window)`, then drop receivers with no buckets. -/
def dbPrune (window : Int) (data : DBData) (now : Int) : DBData :=
  (data.map (fun p => (p.1, p.2.filter (fun q => decide (rustHourly (now - window) < q.1))))).filter
    (fun p => !p.2.isEmpty)

/-- `DB::snapshot` (src/receipts.rs lines 263-268): per receiver, the u128 sum
of its buckets (wrapping). -/
def dbSnapshot (data : DBData) : List (Addr × Nat) :=
  data.map (fun p => (p.1, p.2.foldl (fun acc q => (acc + q.2) % 2 ^ 128) 0))

/-- Look up the cumulative fee of one hour bucket. -/
def dataGet (a : Addr) (t : Int) (d : DBData) : Option Nat :=
  (d.find? (fun p => decide (p.1 = a))).bind
    (fun p => (p.2.find? (fun q => decide (q.1 = t))).map Prod.snd)

/-! ## Signer-authorization messages (src/main.rs 101-126, src/contracts.rs 133-175) -/

/-- Big-endian byte encoding of `n` in `w` bytes (`U256::to_be_bytes`,
addresses). -/
def beBytes : Nat → Nat → List Nat
  | 0, _ => []
  | w + 1, n => beBytes w (n / 256) ++ [n % 256]

/-- `copy_from_slice` of `src` into `dst` at offset `i`. -/
def setSlice (dst : List Nat) (i : Nat) (src : List Nat) : List Nat :=
  dst.take i ++ src ++ dst.drop (i + src.length)

/-- The ASCII bytes of `"authorizeSignerProof"`. -/
def tagBytes : List Nat := "authorizeSignerProof".toList.map Char.toNat

/-- The proof message built by the startup authorization in `main`
(src/main.rs lines 109-112): an 84-byte array holding
`chain_id (32 BE) ‖ deadline (32 BE) ‖ payer (20)`, with
`deadline = now + 60`. -/
def mainAuthMessage (chainId nowS : Nat) (payer : List Nat) : List Nat :=
  setSlice (setSlice (setSlice (List.replicate 84 0) 0 (beBytes 32 chainId))
    32 (beBytes 32 (nowS + 60))) 64 payer

/-- The proof message built by `Contracts::authorize_signer`
(src/contracts.rs lines 140-155):
`chain_id (32 BE) ‖ collector (20) ‖ "authorizeSignerProof" ‖ deadline (32 BE)
‖ payer (20)`, with `deadline = now + 60`. -/
def contractsAuthMessage (chainId nowS : Nat) (collector payer : List Nat) : List Nat :=
  beBytes 32 chainId ++ collector ++ tagBytes ++ beBytes 32 (nowS + 60) ++ payer

/-- Modelled from the spec: the claimed signed-message layout
`chain_id (32 BE) ‖ collector (20) ‖ "authorizeSignerProof" ‖ deadline (32 BE)
‖ payer (20)` at a given deadline. -/
def specAuthMessage (chainId deadline : Nat) (collector payer : List Nat) : List Nat :=
  beBytes 32 chainId ++ collector ++ tagBytes ++ beBytes 32 deadline ++ payer

/-! ## Secret redaction (src/config.rs) -/

/-- `Hidden<T>` (src/config.rs line 54): a transparent wrapper. -/
structure Hidden (T : Type) where
  value : T

/-- The `Debug` implementation of `Hidden<T>` (src/config.rs lines 56-60):
`write!(f, "HIDDEN")`, ignoring the wrapped value. -/
def hiddenDebug {T : Type} (_ : Hidden T) : String := "HIDDEN"

/-- Kafka section of the configuration (src/config.rs lines 45-50); the
client properties are wrapped in `Hidden`. -/
structure KafkaCfg where
  config : Hidden (List (String × String))
  cache : String
  topic : String

/-- The configuration (src/config.rs lines 8-43). Sensitive fields are
`Hidden`-wrapped exactly as in the source; addresses and 32-byte keys are
abstracted as naturals, URLs as strings. -/
structure Config where
  authorize_signers : Bool
  chain_id : Nat
  debts : List (Addr × Nat)
  escrow_contract : Addr
  escrow_subgraph : String
  grt_contract : Addr
  grt_allowance : Nat
  kafka : KafkaCfg
  network_subgraph : String
  query_auth : Hidden String
  rpc_url : Hidden String
  secret_key : Hidden Nat
  signers : List (Hidden Nat)
  update_interval_seconds : Nat

/-- The derived `Debug` output of the configuration (`#[derive(Debug)]` on
`Config` and `Kafka`): each field is rendered with its own `Debug`
implementation, so every `Hidden` field renders as the constant `"HIDDEN"`
(a list of `Hidden` values renders one `"HIDDEN"` per element, carrying only
its length). -/
def configDebug (c : Config) : String :=
  "Config( authorize_signers: " ++ toString c.authorize_signers ++
  ", chain_id: " ++ toString c.chain_id ++
  ", debts: " ++ toString c.debts ++
  ", escrow_contract: " ++ toString c.escrow_contract ++
  ", escrow_subgraph: " ++ c.escrow_subgraph ++
  ", grt_contract: " ++ toString c.grt_contract ++
  ", grt_allowance: " ++ toString c.grt_allowance ++
  ", kafka: Kafka( config: " ++ hiddenDebug c.kafka.config ++
  ", cache: " ++ c.kafka.cache ++
  ", topic: " ++ c.kafka.topic ++
  " ), network_subgraph: " ++ c.network_subgraph ++
  ", query_auth: " ++ hiddenDebug c.query_auth ++
  ", rpc_url: " ++ hiddenDebug c.rpc_url ++
  ", secret_key: " ++ hiddenDebug c.secret_key ++
  ", signers: " ++ toString (c.signers.map hiddenDebug) ++
  ", update_interval_seconds: " ++ toString c.update_interval_seconds ++ " )"

/-- Concrete configuration used to witness C10. -/
def cfgA : Config :=
  ⟨true, 1, [], 0, "es", 0, 5, ⟨⟨[("user", "alice")]⟩, "cache", "topic"⟩, "ns",
    ⟨"secretA"⟩, ⟨"rpcA"⟩, ⟨111⟩, [⟨1⟩, ⟨2⟩], 60⟩

/-- Same public fields as `cfgA`, all secrets different. -/
def cfgB : Config :=
  ⟨true, 1, [], 0, "es", 0, 5, ⟨⟨[("pw", "hunter2")]⟩, "cache", "topic"⟩, "ns",
    ⟨"secretB"⟩, ⟨"rpcB"⟩, ⟨222⟩, [⟨3⟩, ⟨4⟩], 60⟩

/-! ## Lemmas about the f64 model -/

theorem log2f_correct : ∀ f n, 0 < n → n < 2 ^ f →
    2 ^ log2f f n ≤ n ∧ n < 2 ^ (log2f f n + 1) := by
  intro f
  induction f with
  | zero => intro n h1 h2; omega
  | succ f ih =>
    intro n h1 h2
    by_cases hn : n ≤ 1
    · have : n = 1 := by omega
      subst this
      simp [log2f]
    · have hrec : log2f (f + 1) n = log2f f (n / 2) + 1 := by
        simp [log2f, hn]
      have h2' : n / 2 < 2 ^ f := by
        have : (2:Nat) ^ (f + 1) = 2 * 2 ^ f := by ring
        omega
      have h1' : 0 < n / 2 := by omega
      obtain ⟨hl, hr⟩ := ih (n / 2) h1' h2'
      rw [hrec]
      constructor
      · have : 2 ^ (log2f f (n / 2) + 1) = 2 * 2 ^ (log2f f (n / 2)) := by ring
        omega
      · have e1 : 2 ^ (log2f f (n / 2) + 1 + 1) = 2 * 2 ^ (log2f f (n / 2) + 1) := by ring
        omega

theorem nlog2_le (n : Nat) (h1 : 0 < n) (h2 : n < 2 ^ 512) : 2 ^ nlog2 n ≤ n :=
  (log2f_correct 512 n h1 h2).1

theorem nlog2_gt (n : Nat) (h1 : 0 < n) (h2 : n < 2 ^ 512) : n < 2 ^ (nlog2 n + 1) :=
  (log2f_correct 512 n h1 h2).2

theorem rhe_one (n : Nat) : rhe n 1 = n := by
  unfold rhe
  dsimp only
  split_ifs <;> omega

theorem rhe_ge (n d : Nat) : n / d ≤ rhe n d := by
  unfold rhe
  dsimp only
  split_ifs <;> omega

theorem rhe_le (n d : Nat) : rhe n d ≤ n / d + 1 := by
  unfold rhe
  dsimp only
  split_ifs <;> omega

theorem rhe_mono (n m d : Nat) (_hd : 0 < d) (h : n ≤ m) : rhe n d ≤ rhe m d := by
  rcases Nat.lt_or_ge (n / d) (m / d) with hq | hq
  · have h1 := rhe_le n d
    have h2 := rhe_ge m d
    omega
  · have hq' : m / d = n / d := Nat.le_antisymm hq (Nat.div_le_div_right h)
    have hn := Nat.div_add_mod n d
    have hm := Nat.div_add_mod m d
    rw [hq'] at hm
    have hr : n % d ≤ m % d := by omega
    unfold rhe
    dsimp only
    rw [hq']
    split_ifs <;> omega

/-- `⌊log2⌋` of an integer: `ratLog2 n 1 = nlog2 n`. -/
theorem ratLog2_one (n : Nat) (h1 : 0 < n) (h2 : n < 2 ^ 512) :
    ratLog2 n 1 = (nlog2 n : Int) := by
  have hle := nlog2_le n h1 h2
  have hcond : ratGePow2 n 1 (nlog2 n : Int) = true := by
    unfold ratGePow2
    simp only [decide_eq_true_eq]
    have e1 : ((nlog2 n : Int)).toNat = nlog2 n := by omega
    have e2 : (-(nlog2 n : Int)).toNat = 0 := by omega
    rw [e1, e2]
    simpa using hle
  have h1' : nlog2 1 = 0 := by decide
  unfold ratLog2
  rw [h1']
  simp only [Nat.cast_zero, sub_zero, hcond, if_true]

theorem nlog2_le_52 (n : Nat) (h1 : 0 < n) (h2 : n < 2 ^ 53) : nlog2 n ≤ 52 := by
  by_contra h
  have h53 : 53 ≤ nlog2 n := by omega
  have := nlog2_le n h1 (by omega)
  have : (2:Nat) ^ 53 ≤ 2 ^ nlog2 n := Nat.pow_le_pow_right (by omega) h53
  omega

theorem nlog2_ge_53 (n : Nat) (h1 : 2 ^ 53 ≤ n) (h2 : n < 2 ^ 512) : 53 ≤ nlog2 n := by
  by_contra h
  have hlt : nlog2 n + 1 ≤ 53 := by omega
  have := nlog2_gt n (by positivity) h2
  have : (2:Nat) ^ (nlog2 n + 1) ≤ 2 ^ 53 := Nat.pow_le_pow_right (by omega) hlt
  omega

theorem f64Val_nonneg (p : F64) : 0 ≤ f64Val p := by
  unfold f64Val
  positivity

/-- The Bool comparison on dyadic pairs agrees with the rational order. -/
theorem dyadLe_iff (p q : F64) : dyadLe p q = true ↔ f64Val p ≤ f64Val q := by
  obtain ⟨a, i⟩ := p
  obtain ⟨b, j⟩ := q
  unfold dyadLe f64Val
  simp only [decide_eq_true_eq]
  rcases le_total i j with hle | hle
  · have e1 : (i - j).toNat = 0 := by omega
    have e2 : ((j - i).toNat : Int) = j - i := by omega
    rw [e1]
    simp only [pow_zero, mul_one]
    have h2 : (2:ℚ) ^ j = ((2 ^ (j - i).toNat : Nat) : ℚ) * 2 ^ i := by
      push_cast
      rw [← zpow_natCast (2:ℚ) (j - i).toNat, e2, ← zpow_add₀ (by norm_num : (2:ℚ) ≠ 0)]
      ring_nf
    constructor
    · intro h
      rw [h2, ← mul_assoc]
      apply mul_le_mul_of_nonneg_right _ (le_of_lt (zpow_pos (by norm_num) i))
      exact_mod_cast h
    · intro h
      rw [h2, ← mul_assoc] at h
      have := le_of_mul_le_mul_right h (zpow_pos (by norm_num : (0:ℚ) < 2) i)
      exact_mod_cast this
  · have e1 : (j - i).toNat = 0 := by omega
    have e2 : ((i - j).toNat : Int) = i - j := by omega
    rw [e1]
    simp only [pow_zero, mul_one]
    have h2 : (2:ℚ) ^ i = ((2 ^ (i - j).toNat : Nat) : ℚ) * 2 ^ j := by
      push_cast
      rw [← zpow_natCast (2:ℚ) (i - j).toNat, e2, ← zpow_add₀ (by norm_num : (2:ℚ) ≠ 0)]
      ring_nf
    constructor
    · intro h
      rw [h2, ← mul_assoc]
      apply mul_le_mul_of_nonneg_right _ (le_of_lt (zpow_pos (by norm_num) j))
      exact_mod_cast h
    · intro h
      rw [h2, ← mul_assoc] at h
      have := le_of_mul_le_mul_right h (zpow_pos (by norm_num : (0:ℚ) < 2) j)
      exact_mod_cast this

/-- `toF64` rounds every natural number (below the model's fuel bound) to the
integer `natRound n`. -/
theorem toF64_val (n : Nat) (h2 : n < 2 ^ 512) : f64Val (toF64 n) = (natRound n : ℚ) := by
  by_cases hn : n = 0
  · subst hn
    norm_num [toF64, roundDyad, f64Val, natRound]
  · have hpos : 0 < n := Nat.pos_of_ne_zero hn
    have hstep : toF64 n = roundPosPair n 1 := by
      simp [toF64, roundDyad, hn]
    rw [hstep]
    unfold roundPosPair
    dsimp only
    rw [ratLog2_one n hpos h2]
    by_cases hsmall : n < 2 ^ 53
    · have hL : nlog2 n ≤ 52 := nlog2_le_52 n hpos hsmall
      have e1 : ((52 : Int) - (nlog2 n : Int)).toNat = 52 - nlog2 n := by omega
      have e2 : ((nlog2 n : Int) - 52).toNat = 0 := by omega
      rw [e1, e2]
      simp only [pow_zero, mul_one, rhe_one]
      unfold f64Val natRound
      rw [if_pos hsmall]
      push_cast
      have ez : ((52 - nlog2 n : ℕ) : ℤ) = 52 - (nlog2 n : ℤ) := by omega
      rw [← zpow_natCast (2:ℚ) (52 - nlog2 n), ez, mul_assoc,
        ← zpow_add₀ (by norm_num : (2:ℚ) ≠ 0)]
      norm_num
    · have hL : 53 ≤ nlog2 n := nlog2_ge_53 n (by omega) h2
      have e1 : ((52 : Int) - (nlog2 n : Int)).toNat = 0 := by omega
      have e2 : ((nlog2 n : Int) - 52).toNat = nlog2 n - 52 := by omega
      rw [e1, e2]
      simp only [pow_zero, mul_one, one_mul]
      unfold f64Val natRound
      rw [if_neg hsmall]
      push_cast
      have ez : ((nlog2 n - 52 : ℕ) : ℤ) = (nlog2 n : ℤ) - 52 := by omega
      rw [← zpow_natCast (2:ℚ) (nlog2 n - 52), ez]

theorem nlog2_mono (a b : Nat) (ha : 0 < a) (h : a ≤ b) (hb : b < 2 ^ 512) :
    nlog2 a ≤ nlog2 b := by
  by_contra hcon
  have h1 : nlog2 b + 1 ≤ nlog2 a := by omega
  have h2 := nlog2_le a ha (by omega)
  have h3 := nlog2_gt b (by omega) hb
  have h4 : (2:Nat) ^ (nlog2 b + 1) ≤ 2 ^ nlog2 a := Nat.pow_le_pow_right (by omega) h1
  omega

theorem natRound_big_lower (n : Nat) (h1 : 2 ^ 53 ≤ n) (h2 : n < 2 ^ 512) :
    2 ^ nlog2 n ≤ natRound n := by
  have hL : 53 ≤ nlog2 n := nlog2_ge_53 n h1 h2
  have hDpos : 0 < 2 ^ (nlog2 n - 52) := Nat.pos_pow_of_pos _ (by omega)
  have hpow : 2 ^ (nlog2 n - 52) * 2 ^ 52 = 2 ^ nlog2 n := by
    rw [← pow_add]
    congr 1
    omega
  have hge : 2 ^ 52 ≤ n / 2 ^ (nlog2 n - 52) := by
    rw [Nat.le_div_iff_mul_le hDpos]
    calc 2 ^ 52 * 2 ^ (nlog2 n - 52) = 2 ^ nlog2 n := by rw [mul_comm]; exact hpow
      _ ≤ n := nlog2_le n (by omega) h2
  have hrhe : 2 ^ 52 ≤ rhe n (2 ^ (nlog2 n - 52)) := le_trans hge (rhe_ge _ _)
  unfold natRound
  rw [if_neg (by omega)]
  calc 2 ^ nlog2 n = 2 ^ 52 * 2 ^ (nlog2 n - 52) := by rw [mul_comm]; exact hpow.symm
    _ ≤ rhe n (2 ^ (nlog2 n - 52)) * 2 ^ (nlog2 n - 52) :=
        Nat.mul_le_mul_right _ hrhe

theorem natRound_big_upper (n : Nat) (h1 : 2 ^ 53 ≤ n) (h2 : n < 2 ^ 512) :
    natRound n ≤ 2 ^ (nlog2 n + 1) := by
  have hL : 53 ≤ nlog2 n := nlog2_ge_53 n h1 h2
  have hDpos : 0 < 2 ^ (nlog2 n - 52) := Nat.pos_pow_of_pos _ (by omega)
  have hpow : 2 ^ (nlog2 n - 52) * 2 ^ 53 = 2 ^ (nlog2 n + 1) := by
    rw [← pow_add]
    congr 1
    omega
  have hlt : n / 2 ^ (nlog2 n - 52) < 2 ^ 53 := by
    rw [Nat.div_lt_iff_lt_mul hDpos]
    calc n < 2 ^ (nlog2 n + 1) := nlog2_gt n (by omega) h2
      _ = 2 ^ 53 * 2 ^ (nlog2 n - 52) := by rw [mul_comm]; exact hpow.symm
  have hrhe : rhe n (2 ^ (nlog2 n - 52)) ≤ 2 ^ 53 := le_trans (rhe_le _ _) (by omega)
  unfold natRound
  rw [if_neg (by omega)]
  calc rhe n (2 ^ (nlog2 n - 52)) * 2 ^ (nlog2 n - 52)
      ≤ 2 ^ 53 * 2 ^ (nlog2 n - 52) := Nat.mul_le_mul_right _ hrhe
    _ = 2 ^ (nlog2 n + 1) := by rw [mul_comm]; exact hpow

theorem natRound_mono (a b : Nat) (h : a ≤ b) (hb : b < 2 ^ 512) :
    natRound a ≤ natRound b := by
  by_cases hb53 : b < 2 ^ 53
  · unfold natRound
    rw [if_pos (by omega), if_pos hb53]
    exact h
  · by_cases ha53 : a < 2 ^ 53
    · have h1 : natRound a = a := by unfold natRound; rw [if_pos ha53]
      have hLb : 53 ≤ nlog2 b := nlog2_ge_53 b (by omega) hb
      have h2 : (2:Nat) ^ 53 ≤ 2 ^ nlog2 b := Nat.pow_le_pow_right (by omega) hLb
      have h3 := natRound_big_lower b (by omega) hb
      omega
    · have hla : 53 ≤ nlog2 a := nlog2_ge_53 a (by omega) (by omega)
      have hmono : nlog2 a ≤ nlog2 b := nlog2_mono a b (by omega) h hb
      rcases eq_or_lt_of_le hmono with heq | hlt
      · unfold natRound
        rw [if_neg ha53, if_neg hb53, heq]
        exact Nat.mul_le_mul_right _ (rhe_mono a b _ (Nat.pos_pow_of_pos _ (by omega)) h)
      · have h1 := natRound_big_upper a (by omega) (by omega)
        have h2 := natRound_big_lower b (by omega) hb
        have h3 : (2:Nat) ^ (nlog2 a + 1) ≤ 2 ^ nlog2 b :=
          Nat.pow_le_pow_right (by omega) (by omega)
        omega

theorem toF64_le (a b : Nat) (h : a ≤ b) (hb : b < 2 ^ 512) :
    f64Val (toF64 a) ≤ f64Val (toF64 b) := by
  rw [toF64_val a (lt_of_le_of_lt h hb), toF64_val b hb]
  exact_mod_cast natRound_mono a b h hb

/-- The loop guard of `next_balance` is monotone in `debt`. -/
theorem guardF_mono (r a b : Nat) (h : a ≤ b) (hb : b < 2 ^ 512)
    (hg : guardF a r = true) : guardF b r = true := by
  unfold guardF at *
  rw [dyadLe_iff] at *
  exact le_trans hg (toF64_le a b h hb)

/-- The `next_balance` loop returns `r·GRT` for the first value `r` in the
chain of `next_round` values at which the guard fails. -/
theorem loopFuel_eq_find : ∀ (f debt r : Nat),
    loopFuel f debt r =
      ((chainList f r).find? (fun x => !guardF debt x)).map (fun x => x * GRT) := by
  intro f
  induction f with
  | zero => intro debt r; simp [loopFuel, chainList]
  | succ f ih =>
    intro debt r
    by_cases hstuck : satMul2 r = r
    · cases hg : guardF debt r
      · simp [loopFuel, chainList, hstuck, hg]
      · simp [loopFuel, chainList, hstuck, hg]
    · cases hg : guardF debt r
      · simp [loopFuel, chainList, hstuck, hg]
      · simp [loopFuel, chainList, hstuck, hg, ih]

/-- `find?` over a sorted list moves later (or stays) when the predicate
weakens pointwise. -/
theorem find_mono {p q : Nat → Bool} : ∀ (l : List Nat), l.Pairwise (· ≤ ·) →
    (∀ x, q x = true → p x = true) →
    ∀ x y, l.find? p = some x → l.find? q = some y → x ≤ y := by
  intro l
  induction l with
  | nil => intro _ _ x y hx _; simp at hx
  | cons h t ih =>
    intro hp himp x y hx hy
    rcases List.pairwise_cons.mp hp with ⟨hhead, htail⟩
    cases hq : q h
    · cases hp' : p h
      · rw [List.find?_cons_of_neg _ (by simp [hp'])] at hx
        rw [List.find?_cons_of_neg _ (by simp [hq])] at hy
        exact ih htail himp x y hx hy
      · rw [List.find?_cons_of_pos _ (by simp [hp'])] at hx
        rw [List.find?_cons_of_neg _ (by simp [hq])] at hy
        have hy' := List.mem_of_find?_eq_some hy
        have hx' : x = h := by
          simpa using hx.symm
        subst hx'
        exact hhead y hy'
    · have hp2 : p h = true := himp h hq
      rw [List.find?_cons_of_pos _ hp2] at hx
      rw [List.find?_cons_of_pos _ hq] at hy
      have hx' : x = h := by simpa using hx.symm
      have hy' : y = h := by simpa using hy.symm
      subst hx'
      subst hy'
      exact le_refl _

/-- `next_balance` in terms of the saturating-doubling chain from the entry
value `MIN_DEPOSIT / GRT = 2`. -/
theorem next_balance_eq_find (debt : Nat) :
    next_balance debt =
      ((chainList 33 2).find? (fun x => !guardF debt x)).map (fun x => x * GRT) := by
  have h2 : MIN_DEPOSIT / GRT = 2 := by decide
  unfold next_balance
  rw [h2, loopFuel_eq_find]

/-! ## Claim theorems -/

/-- C4: canonical tier-ladder vectors: `next_balance(0) = MIN`,
`next_balance(MIN) = 2·MIN`, `next_balance(MIN+1) = 2·MIN`,
`next_balance(30·GRT) = 64·GRT`, `next_balance(70·GRT) = 128·GRT`,
`next_balance(100·GRT) = 256·GRT`, where `MIN = 2·GRT` and `GRT = 10^18`. -/
theorem next_balance_vectors :
    GRT = 10 ^ 18 ∧ MIN_DEPOSIT = 2 * GRT ∧
    next_balance 0 = some MIN_DEPOSIT ∧
    next_balance MIN_DEPOSIT = some (2 * MIN_DEPOSIT) ∧
    next_balance (MIN_DEPOSIT + 1) = some (2 * MIN_DEPOSIT) ∧
    next_balance (30 * GRT) = some (64 * GRT) ∧
    next_balance (70 * GRT) = some (128 * GRT) ∧
    next_balance (100 * GRT) = some (256 * GRT) := by
  refine ⟨by decide, by decide, by decide, by decide, by decide, by decide, by decide, by decide⟩

/-- C3 counterexample: at `debt = 20000·GRT` the source's `next_balance`
(pure saturating doubling, yielding `65536·GRT`) differs from the spec's
recurrence `r = min(saturating(r·2), r + MAX_BATCH/GRT)` (which yields
`36384·GRT`), so the claimed equality fails. -/
theorem next_balance_ladder_cx :
    next_balance (20000 * GRT) = some (65536 * GRT) ∧
    specTierLadder (20000 * GRT) = some (36384 * GRT) ∧
    next_balance (20000 * GRT) ≠ specTierLadder (20000 * GRT) := by
  refine ⟨by decide, by decide, by decide⟩

/-- C3 (amended): `next_balance(debt)` returns `r·GRT` for the first `r` in
the pure saturating-doubling chain `2, 4, …, 2^31, 2^32−1` whose threshold
`(r·GRT)·0.6` (in f64) exceeds `debt`; the update is `r = saturating(r·2)`
only — there is no linear `MAX_BATCH/GRT` extension. When the guard holds
even at `2^32−1` the loop never returns. -/
theorem next_balance_saturating_chain :
    (∀ debt, next_balance debt =
      ((chainList 33 2).find? (fun x => !guardF debt x)).map (fun x => x * GRT)) ∧
    chainList 33 2 =
      [2, 4, 8, 16, 32, 64, 128, 256, 512, 1024, 2048, 4096, 8192, 16384, 32768,
       65536, 131072, 262144, 524288, 1048576, 2097152, 4194304, 8388608,
       16777216, 33554432, 67108864, 134217728, 268435456, 536870912,
       1073741824, 2147483648, 4294967295] :=
  ⟨next_balance_eq_find, by decide⟩

/-- C5: the tier ladder is monotone: for debts in the u128 range on which
`next_balance` returns, `a ≤ b` implies `next_balance(a) ≤ next_balance(b)`. -/
theorem next_balance_monotone (a b va vb : Nat) (hab : a ≤ b) (hb : b < 2 ^ 128)
    (ha : next_balance a = some va) (hbv : next_balance b = some vb) : va ≤ vb := by
  rw [next_balance_eq_find] at ha hbv
  obtain ⟨xa, hfa, hva⟩ := Option.map_eq_some'.mp ha
  obtain ⟨xb, hfb, hvb⟩ := Option.map_eq_some'.mp hbv
  have hb512 : b < 2 ^ 512 := lt_of_lt_of_le hb (Nat.pow_le_pow_right (by omega) (by omega))
  have himp : ∀ x, (!guardF b x) = true → (!guardF a x) = true := by
    intro x hx
    by_contra hcon
    have hga : guardF a x = true := by
      cases hgc : guardF a x
      · exact absurd (by simp [hgc]) hcon
      · rfl
    have hgb := guardF_mono x a b hab hb512 hga
    simp [hgb] at hx
  have hx : xa ≤ xb := find_mono (chainList 33 2) (by decide) himp xa xb hfa hfb
  calc va = xa * GRT := hva.symm
    _ ≤ xb * GRT := Nat.mul_le_mul_right _ hx
    _ = vb := hvb

/-- C5 witness: instantiated at `a = 0 ≤ b = MIN_DEPOSIT`, where
`next_balance` returns `2·GRT` and `4·GRT`. -/
theorem next_balance_monotone_witness : (2 * GRT : Nat) ≤ 4 * GRT :=
  next_balance_monotone 0 MIN_DEPOSIT (2 * GRT) (4 * GRT)
    (by decide) (by decide) (by decide) (by decide)

/-- C9: `next_balance` terminates whenever the f64 guard fails at the
saturation point `2^32 − 1`, i.e. whenever `debt` compares (in f64) strictly
below the threshold `((2^32−1)·GRT)·0.6`: the chain reaches `2^32−1` by
saturating doubling from 2, and the guard fails there. -/
theorem next_balance_terminates (debt : Nat) (h : guardF debt U32MAX = false) :
    ∃ v, next_balance debt = some v := by
  rw [next_balance_eq_find]
  cases hf : (chainList 33 2).find? (fun x => !guardF debt x) with
  | none =>
    have hmem : U32MAX ∈ chainList 33 2 := by decide
    have hnone := List.find?_eq_none.mp hf U32MAX hmem
    simp [h] at hnone
  | some x => exact ⟨x * GRT, by simp [hf]⟩

/-- C9 witness: at `debt = 0` the guard at the saturation point fails and
`next_balance` returns. -/
theorem next_balance_terminates_witness : ∃ v, next_balance 0 = some v :=
  next_balance_terminates 0 (by decide)

/-- C1: per-tick adjustment computation. Whenever the adjustments loop
completes with output `out`, then for every receiver `r` of the iterated
union list: with `debt = max(snapshot or 0, floor·GRT or 0)` and
`balance = escrow or 0`, the pair `(r, next_balance(debt) − balance)` (the
saturating difference) is in `out` iff that difference is nonzero; and every
emitted pair arises this way from some receiver. -/
theorem adjustments_per_tick (receivers : List Addr) (snap cfg esc : Addr → Option Nat)
    (out : List (Addr × Nat)) (h : adjustments snap cfg esc receivers = some out) :
    (∀ r ∈ receivers, ∃ nb, next_balance (debtOf snap cfg r) = some nb ∧
      (nb - (esc r).getD 0 ≠ 0 → (r, nb - (esc r).getD 0) ∈ out) ∧
      (nb - (esc r).getD 0 = 0 → ∀ a, (r, a) ∉ out)) ∧
    (∀ p ∈ out, p.1 ∈ receivers ∧
      ∃ nb, next_balance (debtOf snap cfg p.1) = some nb ∧
        p.2 = nb - (esc p.1).getD 0 ∧ p.2 ≠ 0) := by
  induction receivers generalizing out with
  | nil =>
    have hout : out = [] := by
      unfold adjustments at h
      exact (Option.some.inj h).symm
    subst hout
    constructor
    · intro r hr
      simp at hr
    · intro p hp
      simp at hp
  | cons r rest ih =>
    unfold adjustments at h
    cases hnb : next_balance (debtOf snap cfg r) with
    | none => rw [hnb] at h; simp at h
    | some nb =>
      rw [hnb] at h
      cases hrest : adjustments snap cfg esc rest with
      | none => rw [hrest] at h; simp at h
      | some out' =>
        rw [hrest] at h
        obtain ⟨h1, h2⟩ := ih out' hrest
        have hout : out =
            if nb - (esc r).getD 0 = 0 then out' else (r, nb - (esc r).getD 0) :: out' := by
          exact (Option.some.inj h).symm
        subst hout
        by_cases hc : nb - (esc r).getD 0 = 0
        · rw [if_pos hc]
          constructor
          · intro s hs
            rcases List.mem_cons.mp hs with heq | hsrest
            · subst heq
              refine ⟨nb, hnb, fun hne => absurd hc hne, fun _ a ha => ?_⟩
              obtain ⟨_, nb', hnb', hpa, hpne⟩ := h2 (s, a) ha
              have hnn : nb' = nb := Option.some.inj (hnb'.symm.trans hnb)
              subst hnn
              simp only at hpa hpne
              omega
            · exact h1 s hsrest
          · intro p hp
            obtain ⟨hmem, hrest2⟩ := h2 p hp
            exact ⟨List.mem_cons_of_mem _ hmem, hrest2⟩
        · rw [if_neg hc]
          constructor
          · intro s hs
            rcases List.mem_cons.mp hs with heq | hsrest
            · subst heq
              exact ⟨nb, hnb, fun _ => List.mem_cons_self _ _, fun h0 => absurd h0 hc⟩
            · obtain ⟨nb', hnb', hi1, hi2⟩ := h1 s hsrest
              refine ⟨nb', hnb', fun hne => List.mem_cons_of_mem _ (hi1 hne), ?_⟩
              intro h0 a ha
              rcases List.mem_cons.mp ha with heq | ha'
              · have hs' : s = r := congrArg Prod.fst heq
                subst hs'
                have hnn : nb' = nb := Option.some.inj (hnb'.symm.trans hnb)
                subst hnn
                exact hc h0
              · exact hi2 h0 a ha'
          · intro p hp
            rcases List.mem_cons.mp hp with heq | hp'
            · subst heq
              exact ⟨List.mem_cons_self _ _, nb, hnb, rfl, hc⟩
            · obtain ⟨hmem, hrest2⟩ := h2 p hp'
              exact ⟨List.mem_cons_of_mem _ hmem, hrest2⟩

/-- C1 witness: one fresh receiver `5` with empty snapshot, empty floor
table and empty escrow map; the loop emits `(5, 2·GRT)`. -/
theorem adjustments_per_tick_witness :
    (∀ r ∈ [(5 : Addr)], ∃ nb, next_balance (debtOf emptyLookup emptyLookup r) = some nb ∧
      (nb - (emptyLookup r).getD 0 ≠ 0 →
        (r, nb - (emptyLookup r).getD 0) ∈ [((5 : Addr), 2 * GRT)]) ∧
      (nb - (emptyLookup r).getD 0 = 0 → ∀ a, (r, a) ∉ [((5 : Addr), 2 * GRT)])) ∧
    (∀ p ∈ [((5 : Addr), 2 * GRT)], p.1 ∈ [(5 : Addr)] ∧
      ∃ nb, next_balance (debtOf emptyLookup emptyLookup p.1) = some nb ∧
        p.2 = nb - (emptyLookup p.1).getD 0 ∧ p.2 ≠ 0) :=
  adjustments_per_tick [5] emptyLookup emptyLookup emptyLookup [(5, 2 * GRT)] (by decide)

/-- C2 counterexample: a single adjustment of `20000·GRT` (total above
`MAX_BATCH`): the pair of vectors passed to `depositMany` is the unreduced
list itself, whose sum `20000·GRT` exceeds `MAX_BATCH + 100·GRT`, refuting
the claimed reduction to `[MAX_BATCH, MAX_BATCH + 100·GRT]`. -/
theorem deposit_batch_cap_cx :
    MAX_BATCH < totalAdjustment [((0 : Addr), 20000 * GRT)] ∧
    depositCall [((0 : Addr), 20000 * GRT)] = some ([0], [20000 * GRT]) ∧
    MAX_BATCH + 100 * GRT < List.sum [20000 * GRT] := by
  refine ⟨by decide, by decide, by decide⟩

/-- C2 (amended): no batch-cap reduction exists in the deposit path: whenever
the total adjustment is nonzero, the exact unreduced adjustment list is
passed to `depositMany` (receivers = the first components, amounts = the
second components, in order); its sum is not constrained to
`[MAX_BATCH, MAX_BATCH + 100·GRT]`. -/
theorem deposit_passes_unreduced (adj : List (Addr × Nat))
    (h : 0 < totalAdjustment adj) :
    depositCall adj = some (adj.map Prod.fst, adj.map Prod.snd) := by
  unfold depositCall
  rw [if_pos h]

/-- C2 witness. -/
theorem deposit_passes_unreduced_witness :
    depositCall [((3 : Addr), GRT)] = some ([3], [GRT]) :=
  deposit_passes_unreduced [(3, GRT)] (by decide)

/-- Rust's truncating `%` never exceeds the flooring `%` (positive modulus). -/
theorem tmod_le_emod (t : Int) : Int.tmod t 3600 ≤ t % 3600 := by
  rcases le_or_lt 0 t with ht | ht
  · rw [Int.tmod_eq_emod ht (by norm_num)]
  · have ha : (0:Int) ≤ -t := by omega
    have h0 : 0 ≤ (-t).tmod 3600 := Int.tmod_nonneg _ ha
    have he : t.tmod 3600 = -((-t).tmod 3600) := by
      rw [Int.tmod_def, Int.tmod_def, Int.neg_tdiv]
      ring
    have h2 : 0 ≤ t % 3600 := Int.emod_nonneg t (by norm_num)
    omega

theorem floorHour_le_rustHourly (t : Int) : floorHour t ≤ rustHourly t := by
  unfold floorHour rustHourly
  have := tmod_le_emod t
  omega

/-- C6: aggregator window. An update older than `now − W` is discarded on
ingest (the DB is unchanged, so it never contributes to any published
snapshot); and after pruning at `now`, every surviving receiver has a
nonempty bucket list all of whose keys are strictly above
`floor_to_hour(now − W)` — every bucket with key ≤ `floor_to_hour(now − W)`
is removed, and receivers left with no buckets are removed. -/
theorem aggregator_window (window : Int) (data : DBData) (u : FeeUpdate) (now : Int) :
    (u.timestamp < now - window → dbUpdate window data u now = data ∧
      dbSnapshot (dbUpdate window data u now) = dbSnapshot data) ∧
    (∀ p ∈ dbPrune window data now, p.2 ≠ [] ∧
      ∀ q ∈ p.2, floorHour (now - window) < q.1) := by
  constructor
  · intro h
    have hdb : dbUpdate window data u now = data := by
      unfold dbUpdate
      rw [if_pos h]
    exact ⟨hdb, by rw [hdb]⟩
  · intro p hp
    unfold dbPrune at hp
    rw [List.mem_filter] at hp
    obtain ⟨hmap, hne⟩ := hp
    constructor
    · intro hnil
      rw [hnil] at hne
      simp at hne
    · intro q hq
      rw [List.mem_map] at hmap
      obtain ⟨p0, _, hpe⟩ := hmap
      rw [← hpe] at hq
      rw [List.mem_filter] at hq
      have hgt : rustHourly (now - window) < q.1 := of_decide_eq_true hq.2
      have hle := floorHour_le_rustHourly (now - window)
      omega

/-- C6 witness: `window = 28 days = 2419200 s`, `now = 2419200`; the update at
`ts = −1 < now − W = 0` is discarded, and pruning removes the bucket with key
`−3600 ≤ 0` while keeping the one at `7200`. -/
theorem aggregator_window_witness :
    (dbUpdate 2419200 [(7, [(-3600, 5), (7200, 3)])] ⟨-1, 7, 1⟩ 2419200
        = [(7, [(-3600, 5), (7200, 3)])] ∧
      dbSnapshot (dbUpdate 2419200 [(7, [(-3600, 5), (7200, 3)])] ⟨-1, 7, 1⟩ 2419200)
        = dbSnapshot [(7, [(-3600, 5), (7200, 3)])]) ∧
    (∀ p ∈ dbPrune 2419200 [(7, [(-3600, 5), (7200, 3)])] 2419200, p.2 ≠ [] ∧
      ∀ q ∈ p.2, floorHour (2419200 - 2419200) < q.1) := by
  have h := aggregator_window 2419200 [(7, [(-3600, 5), (7200, 3)])] ⟨-1, 7, 1⟩ 2419200
  exact ⟨h.1 (by decide), h.2⟩

theorem bucketAdd_find (t : Int) (fee : Nat) (es : List (Int × Nat)) :
    ((bucketAdd t fee es).find? (fun q => decide (q.1 = t))).map Prod.snd
      = some ((((es.find? (fun q => decide (q.1 = t))).map Prod.snd).getD 0 + fee)
          % 2 ^ 128) := by
  induction es with
  | nil => simp [bucketAdd, List.find?]
  | cons hd tl ih =>
    obtain ⟨t', v⟩ := hd
    by_cases hht : t' = t
    · subst hht
      simp [bucketAdd, List.find?]
    · simp [bucketAdd, hht, List.find?, ih]

theorem dataAdd_get (a : Addr) (t : Int) (fee : Nat) (d : DBData) :
    dataGet a t (dataAdd a t fee d)
      = some (((dataGet a t d).getD 0 + fee) % 2 ^ 128) := by
  induction d with
  | nil =>
    simp [dataAdd, dataGet, List.find?]
  | cons hd tl ih =>
    obtain ⟨a', es⟩ := hd
    by_cases ha : a' = a
    · subst ha
      simp only [dataAdd, if_pos rfl]
      unfold dataGet
      simp only [List.find?, decide_True, Option.bind_some]
      simpa using bucketAdd_find t fee es
    · simp only [dataAdd, if_neg ha]
      have hskip1 : List.find? (fun p => decide (p.1 = a)) ((a', es) :: dataAdd a t fee tl)
          = List.find? (fun p => decide (p.1 = a)) (dataAdd a t fee tl) := by
        simp [List.find?, ha]
      have hskip2 : List.find? (fun p => decide (p.1 = a)) ((a', es) :: tl)
          = List.find? (fun p => decide (p.1 = a)) tl := by
        simp [List.find?, ha]
      unfold dataGet at ih ⊢
      rw [hskip1, hskip2]
      exact ih

/-- C7 counterexample: a bucket already at `u128::MAX` receives one more unit:
the stored value wraps to `0` instead of clamping at `2^128 − 1`. -/
theorem bucket_add_cx :
    dbUpdate 2419200 [(7, [(0, 2 ^ 128 - 1)])] ⟨0, 7, 1⟩ 0
      = [(7, [(0, 0)])] ∧ (0 : Nat) ≠ 2 ^ 128 - 1 := by
  refine ⟨by decide, by decide⟩

/-- C7 (amended): for every accepted update, adding its fee to the receiver's
hour bucket is plain u128 `+=`: the stored value becomes
`(old + fee) mod 2^128` — wrapping on overflow in release builds (and
panicking in debug builds), not clamping at the u128 maximum. -/
theorem bucket_add_wraps (window : Int) (data : DBData) (u : FeeUpdate) (now : Int)
    (h : ¬ u.timestamp < now - window) :
    dataGet u.indexer (rustHourly u.timestamp) (dbUpdate window data u now)
      = some (((dataGet u.indexer (rustHourly u.timestamp) data).getD 0 + u.fee)
          % 2 ^ 128) := by
  unfold dbUpdate
  rw [if_neg h]
  exact dataAdd_get _ _ _ data

/-- C7 witness. -/
theorem bucket_add_wraps_witness :
    dataGet 7 (rustHourly 0) (dbUpdate 2419200 [] ⟨0, 7, 1⟩ 0)
      = some (((dataGet 7 (rustHourly 0) ([] : DBData)).getD 0 + 1) % 2 ^ 128) :=
  bucket_add_wraps 2419200 [] ⟨0, 7, 1⟩ 0 (by decide)

theorem beBytes_length (w : Nat) : ∀ n, (beBytes w n).length = w := by
  induction w with
  | zero => intro n; simp [beBytes]
  | succ w ih => intro n; simp [beBytes, ih]

/-- `copy_from_slice` writing exactly over the middle segment. -/
theorem setSlice_exact (pre mid suf src : List Nat) (hm : mid.length = src.length) :
    setSlice (pre ++ (mid ++ suf)) pre.length src = pre ++ (src ++ suf) := by
  unfold setSlice
  have ht : (pre ++ (mid ++ suf)).take pre.length = pre := List.take_left pre _
  have hd : (pre ++ (mid ++ suf)).drop (pre.length + src.length) = suf := by
    rw [← List.append_assoc]
    have hlen : (pre ++ mid).length = pre.length + src.length := by
      rw [List.length_append, hm]
    rw [← hlen, List.drop_left]
  rw [ht, hd, List.append_assoc]

/-- `setSlice` at an index equal to the length of the leading segment. -/
theorem setSlice_exact_at (pre mid suf src : List Nat) (i : Nat) (hi : pre.length = i)
    (hm : mid.length = src.length) :
    setSlice (pre ++ (mid ++ suf)) i src = pre ++ (src ++ suf) := by
  subst hi
  exact setSlice_exact pre mid suf src hm

/-- The startup authorization message in `main` is exactly
`chain_id BE32 ‖ deadline BE32 ‖ payer`. -/
theorem mainAuthMessage_eq (chainId nowS : Nat) (payer : List Nat)
    (hp : payer.length = 20) :
    mainAuthMessage chainId nowS payer
      = beBytes 32 chainId ++ (beBytes 32 (nowS + 60) ++ payer) := by
  have hc := beBytes_length 32 chainId
  have hd := beBytes_length 32 (nowS + 60)
  unfold mainAuthMessage
  have e0 : List.replicate 84 (0:Nat)
      = ([] : List Nat) ++ (List.replicate 32 0 ++ List.replicate 52 0) := by decide
  have s1 : setSlice (List.replicate 84 (0:Nat)) 0 (beBytes 32 chainId)
      = beBytes 32 chainId ++ List.replicate 52 0 := by
    rw [e0]
    have := setSlice_exact_at [] (List.replicate 32 0) (List.replicate 52 0)
      (beBytes 32 chainId) 0 rfl (by simp [hc])
    simpa using this
  rw [s1]
  have e1 : beBytes 32 chainId ++ List.replicate 52 (0:Nat)
      = beBytes 32 chainId ++ (List.replicate 32 0 ++ List.replicate 20 0) := by
    have h52 : List.replicate 52 (0:Nat) = List.replicate 32 0 ++ List.replicate 20 0 := by
      decide
    rw [h52]
  have s2 : setSlice (beBytes 32 chainId ++ List.replicate 52 (0:Nat)) 32
        (beBytes 32 (nowS + 60))
      = beBytes 32 chainId ++ (beBytes 32 (nowS + 60) ++ List.replicate 20 0) := by
    rw [e1]
    exact setSlice_exact_at (beBytes 32 chainId) (List.replicate 32 0) (List.replicate 20 0)
      (beBytes 32 (nowS + 60)) 32 hc (by simp [hd])
  rw [s2]
  have e2 : beBytes 32 chainId ++ (beBytes 32 (nowS + 60) ++ List.replicate 20 (0:Nat))
      = (beBytes 32 chainId ++ beBytes 32 (nowS + 60)) ++ (List.replicate 20 0 ++ []) := by
    simp [List.append_assoc]
  have hlen64 : (beBytes 32 chainId ++ beBytes 32 (nowS + 60)).length = 64 := by
    rw [List.length_append, hc, hd]
  have s3 : setSlice (beBytes 32 chainId ++ (beBytes 32 (nowS + 60) ++ List.replicate 20 (0:Nat)))
        64 payer
      = (beBytes 32 chainId ++ beBytes 32 (nowS + 60)) ++ (payer ++ []) := by
    rw [e2]
    exact setSlice_exact_at (beBytes 32 chainId ++ beBytes 32 (nowS + 60))
      (List.replicate 20 0) [] payer 64 hlen64 (by simp [hp])
  rw [s3]
  simp [List.append_assoc]

/-- C8 counterexample: at `chain_id = 1`, `now = 0`, a 20-byte payer and a
20-byte collector, the message signed by the startup authorization in `main`
(src/main.rs lines 109-113) is not the claimed
`chain_id ‖ collector ‖ "authorizeSignerProof" ‖ deadline ‖ payer` message:
it is 84 bytes and omits the collector address and the ASCII tag, while the
claimed message is 124 bytes. -/
theorem auth_message_cx :
    mainAuthMessage 1 0 (List.replicate 20 7)
      ≠ specAuthMessage 1 60 (List.replicate 20 9) (List.replicate 20 7) ∧
    (mainAuthMessage 1 0 (List.replicate 20 7)).length = 84 ∧
    (specAuthMessage 1 60 (List.replicate 20 9) (List.replicate 20 7)).length = 124 := by
  refine ⟨by decide, by decide, by decide⟩

/-- C8 (amended): `Contracts::authorize_signer` (src/contracts.rs) signs
exactly the claimed message
`chain_id (32 BE) ‖ collector (20) ‖ "authorizeSignerProof" ‖ deadline (32 BE)
‖ payer (20)` with `deadline = now + 60 s`; but the startup authorization in
`main` (src/main.rs) instead signs `chain_id (32 BE) ‖ deadline (32 BE) ‖
payer (20)` (84 bytes, no collector address, no ASCII tag), also with
`deadline = now + 60 s`. -/
theorem auth_message_formats (chainId nowS : Nat) (collector payer : List Nat)
    (hp : payer.length = 20) :
    contractsAuthMessage chainId nowS collector payer
      = specAuthMessage chainId (nowS + 60) collector payer ∧
    mainAuthMessage chainId nowS payer
      = beBytes 32 chainId ++ (beBytes 32 (nowS + 60) ++ payer) :=
  ⟨rfl, mainAuthMessage_eq chainId nowS payer hp⟩

/-- C8 witness. -/
theorem auth_message_formats_witness :
    contractsAuthMessage 1 0 (List.replicate 20 9) (List.replicate 20 7)
      = specAuthMessage 1 60 (List.replicate 20 9) (List.replicate 20 7) ∧
    mainAuthMessage 1 0 (List.replicate 20 7)
      = beBytes 32 1 ++ (beBytes 32 60 ++ List.replicate 20 7) :=
  auth_message_formats 1 0 (List.replicate 20 9) (List.replicate 20 7) (by decide)

/-- A `Hidden` list renders as one constant `"HIDDEN"` per element. -/
theorem map_hiddenDebug (l : List (Hidden Nat)) :
    l.map hiddenDebug = List.replicate l.length "HIDDEN" := by
  induction l with
  | nil => simp
  | cons x xs ih => simp [hiddenDebug, ih, List.replicate_succ]

/-- C10: secret redaction is noninterfering: the `Debug` rendering of
`Hidden<T>` is the constant string `"HIDDEN"` for every type `T` and every
wrapped value; consequently the debug rendering of two configurations that
agree on all non-secret fields (and have the same number of signer keys) is
identical, whatever their `query_auth`, `rpc_url`, `secret_key`, signer keys
and Kafka client properties are. -/
theorem hidden_redaction :
    (∀ (T : Type) (a b : Hidden T), hiddenDebug a = "HIDDEN" ∧ hiddenDebug a = hiddenDebug b) ∧
    (∀ c₁ c₂ : Config,
      c₁.authorize_signers = c₂.authorize_signers →
      c₁.chain_id = c₂.chain_id →
      c₁.debts = c₂.debts →
      c₁.escrow_contract = c₂.escrow_contract →
      c₁.escrow_subgraph = c₂.escrow_subgraph →
      c₁.grt_contract = c₂.grt_contract →
      c₁.grt_allowance = c₂.grt_allowance →
      c₁.kafka.cache = c₂.kafka.cache →
      c₁.kafka.topic = c₂.kafka.topic →
      c₁.network_subgraph = c₂.network_subgraph →
      c₁.signers.length = c₂.signers.length →
      c₁.update_interval_seconds = c₂.update_interval_seconds →
      configDebug c₁ = configDebug c₂) := by
  constructor
  · intro T a b
    exact ⟨rfl, rfl⟩
  · intro c₁ c₂ h1 h2 h3 h4 h5 h6 h7 h8 h9 h10 h11 h12
    unfold configDebug
    rw [h1, h2, h3, h4, h5, h6, h7, h8, h9, h10, h12, map_hiddenDebug, map_hiddenDebug, h11]
    simp only [hiddenDebug]

/-- C10 witness: two configurations differing in every secret render
identically. -/
theorem hidden_redaction_witness :
    (hiddenDebug (Hidden.mk (42 : Nat)) = "HIDDEN" ∧
      hiddenDebug (Hidden.mk (42 : Nat)) = hiddenDebug (Hidden.mk (43 : Nat))) ∧
    configDebug cfgA = configDebug cfgB :=
  ⟨hidden_redaction.1 Nat ⟨42⟩ ⟨43⟩,
    hidden_redaction.2 cfgA cfgB rfl rfl rfl rfl rfl rfl rfl rfl rfl rfl rfl rfl⟩
